import Mathlib

/-!
# libxayagame: board rules interface and the ships game-state projection

Shallow embedding of

* `src/gamechannel/boardrules.hpp`: the types `BoardState`, `BoardMove`, the
  abstract classes `ParsedBoardState` and `BoardRules` and the constant
  `ParsedBoardState::NO_TURN`;
* `src/ships/gamestatejson.cpp`: `GameStateJson::GetFullJson`, together with
  the part of jsoncpp's `Json::Value` the function uses.

C++ objects with pure virtual methods become structures of functions, the
SQLite database becomes an explicit state that is passed through every
operation, the jsoncpp calls that can raise (member assignment on a value
that is neither null nor an object) return `Option`, and a call that a failed
RPC request leaves by an exception returns `Except`.
-/

/-! ## jsoncpp values -/

namespace Json

/-- Byte-wise lexicographic comparison, the order `CZString::operator<` puts on
the keys of an object (`memcmp` on the common length, then the shorter string
first). -/
def lexLt : List Char → List Char → Bool
  | [], [] => false
  | [], _ :: _ => true
  | _ :: _, [] => false
  | a :: as, b :: bs =>
    if a.toNat < b.toNat then true
    else if b.toNat < a.toNat then false
    else lexLt as bs

/-- Strict order on member names. -/
def keyLt (a b : String) : Bool := lexLt a.data b.data

/-- The value kinds of `Json::Value` (the floating-point and unsigned kinds are
not produced by the code embedded here).  An object is the ordered map of the
C++ class, kept as a list of members sorted by key. -/
inductive Value where
  | null
  | bool (b : Bool)
  | int (n : Int)
  | string (s : String)
  | array (items : List Value)
  | object (members : List (String × Value))

/-- Insertion into the member map of an object: an existing key gets the new
value, a new key is placed by the key order. -/
def insertMember (key : String) (v : Value) : List (String × Value) → List (String × Value)
  | [] => [(key, v)]
  | (k, w) :: rest =>
    if key = k then (key, v) :: rest
    else if keyLt key k then (key, v) :: (k, w) :: rest
    else (k, w) :: insertMember key v rest

/-- Lookup in the member map. -/
def findMember (key : String) : List (String × Value) → Option Value
  | [] => none
  | (k, w) :: rest => if key = k then some w else findMember key rest

/-- The statement `self[key] = v`.  `Value::operator[]` requires the value to be
null (which it turns into an object) or an object, and raises otherwise. -/
def Value.assign (self : Value) (key : String) (v : Value) : Option Value :=
  match self with
  | .object members => some (.object (insertMember key v members))
  | .null => some (.object [(key, v)])
  | _ => none

/-- The method `Value::getMemberNames`, for an object. -/
def Value.getMemberNames : Value → List String
  | .object members => members.map Prod.fst
  | _ => []

/-- The method `Value::find`: the member stored under a key, if any. -/
def Value.find (self : Value) (key : String) : Option Value :=
  match self with
  | .object members => findMember key members
  | _ => none

/-- The method `Value::isObject`. -/
def Value.isObject : Value → Bool
  | .object _ => true
  | _ => false

/-- The method `Value::isNull`. -/
def Value.isNull : Value → Bool
  | .null => true
  | _ => false

/-- Conversion to `Json::Int64`: reduction into the signed 64-bit range. -/
def toInt64 (x : Int) : Int := (x + 2 ^ 63) % 2 ^ 64 - 2 ^ 63

/-- Membership in the signed 64-bit range. -/
def isInt64 (x : Int) : Prop := -(2 : Int) ^ 63 ≤ x ∧ x < 2 ^ 63

end Json

/-! ## `gamechannel/boardrules.hpp` -/

namespace xaya

/-- The state of the current game board, encoded in a game-specific format
(`using BoardState = std::string`). -/
abbrev BoardState := String

/-- The game-specific encoded data of a move (`using BoardMove = std::string`). -/
abbrev BoardMove := String

/-- Modelled from the spec: the type `uint256` of `xayautil/uint256.hpp`, which
is not among the sources; a fixed-size 256-bit channel identifier whose content is not inspected. -/
structure uint256 where
  value : Nat
  deriving DecidableEq

/-- Modelled from the spec: the message `proto::ChannelMetadata` of
`proto/metadata.pb.h`, which is not among the sources; the ordered list of
participants (identity/address, the turn index being the position in the list). -/
structure ChannelMetadata where
  participants : List String
  deriving DecidableEq

/-- Modelled from the spec: the ways a query to the blockchain oracle fails (6):
the oracle is unreachable, the height is not yet confirmed, or the response is
malformed.  The RPC stubs are not among the sources; in C++ such a failure
leaves the call on the RPC client as an exception. -/
inductive OracleFailure where
  | unreachable
  | notConfirmed
  | malformedResponse
  deriving DecidableEq

/-- Modelled from the spec: the class `XayaRpcClient` of the RPC stubs, which is
not among the sources; a read-only handle to confirmed chain data, at minimum
the block hash at a given height, each query of which can fail. -/
structure XayaRpcClient where
  getblockhash : Nat → Except OracleFailure String

/-- The class `ParsedBoardState`: the four pure virtual methods.  `ApplyMove`
takes the RPC client and is not `noexcept`: a call either returns its `bool`
together with the content of the out-parameter `newState`, or is left by the
exception of a failed RPC request.  `WhoseTurn` is a C++ `int`, `TurnCount` a
C++ `unsigned`. -/
structure ParsedBoardState where
  Equals : BoardState → Bool
  WhoseTurn : Int
  TurnCount : Nat
  ApplyMove : XayaRpcClient → BoardMove → Except OracleFailure (Bool × BoardState)

/-- The constant `ParsedBoardState::NO_TURN`. -/
def ParsedBoardState.NO_TURN : Int := -1

/-- The class `BoardRules`: `ParseState` returns `nullptr` (here `none`) for an
invalid state. -/
structure BoardRules where
  ParseState : uint256 → ChannelMetadata → BoardState → Option ParsedBoardState

/-- A value of `WhoseTurn` that is an index into a participants array of length `n`. -/
def isParticipantIndex (n : Nat) (t : Int) : Prop := 0 ≤ t ∧ t < (n : Int)

end xaya

/-! ## `ships/gamestatejson.cpp` -/

namespace xaya

/-- One row of the table `game_stats`: the columns `name`, `won`, `lost` that the
query of `GetFullJson` selects.  The integer columns hold SQLite integers. -/
structure StatsRow where
  name : String
  won : Int
  lost : Int
  deriving DecidableEq

/-- The database as far as `GetFullJson` reaches it: the rows of `game_stats`
and the records of the channels table (their type is not among the sources and
is a parameter). -/
structure SQLiteDatabase (Chan : Type) where
  game_stats : List StatsRow
  channels : List Chan

/-- The call `db.PrepareRo` with the query `SELECT name, won, lost FROM game_stats`:
the rows the statement will step through, and the database, which a read-only
statement leaves as it is. -/
def SQLiteDatabase.PrepareRo {Chan : Type} (db : SQLiteDatabase Chan) :
    List StatsRow × SQLiteDatabase Chan :=
  (db.game_stats, db)

/-- The class `xaya::ChannelsTable`, as `GetFullJson` constructs it: a handle
on the whole database (obtained through the `const_cast`). -/
structure ChannelsTable (Chan : Type) where
  db : SQLiteDatabase Chan

/-- The call `stmt.Get<int64_t>`: the column value as a signed 64-bit integer. -/
def GetInt64 (column : Int) : Int := Json.toInt64 column

end xaya

namespace ships

open xaya

/-- The class `GameStateJson`: a database and the board rules of the game. -/
structure GameStateJson (Chan : Type) where
  db : SQLiteDatabase Chan
  rules : BoardRules

/-- The loop `while (stmt.Step ())` of `GetFullJson`, on the rows the statement
still has to return: per row an object `cur` with `won` and `lost` is built and
stored in `stats` under the name of the row. -/
def statsLoop : List StatsRow → Json.Value → Option Json.Value
  | [], stats => some stats
  | row :: rest, stats => do
    let name := row.name
    let cur ← (Json.Value.object []).assign "won" (.int (Json.toInt64 (GetInt64 row.won)))
    let cur ← cur.assign "lost" (.int (Json.toInt64 (GetInt64 row.lost)))
    let stats ← stats.assign name cur
    statsLoop rest stats

/-- The object `cur` as it is when the loop body stores it: the member map is
ordered by key, so `lost` precedes `won`. -/
def rowObject (row : StatsRow) : Json.Value :=
  .object [("lost", .int (Json.toInt64 (GetInt64 row.lost))),
           ("won", .int (Json.toInt64 (GetInt64 row.won)))]

/-- The member map of `stats` after the loop has gone through the given rows,
starting from the given member map. -/
def statsMembers (rows : List StatsRow) (members : List (String × Json.Value)) :
    List (String × Json.Value) :=
  rows.foldl (fun acc row => Json.insertMember row.name (rowObject row) acc) members

/-- The method `GameStateJson::GetFullJson`.  The function
`xaya::AllChannelsGameStateJson` is not among the sources and is a parameter;
it receives, by non-const reference, the channels table constructed over the
database, so it takes the table and returns it as it leaves it.  The result is
the returned document (`none` if a jsoncpp call raised) and the database after
the call. -/
def GameStateJson.GetFullJson {Chan : Type}
    (AllChannelsGameStateJson : ChannelsTable Chan → BoardRules → Json.Value × ChannelsTable Chan)
    (self : GameStateJson Chan) : Option Json.Value × SQLiteDatabase Chan :=
  let stats := Json.Value.object []
  let (rows, db1) := self.db.PrepareRo
  match statsLoop rows stats with
  | none => (none, db1)
  | some stats =>
    match (Json.Value.object []).assign "gamestats" stats with
    | none => (none, db1)
    | some res =>
      let (channels, tbl) := AllChannelsGameStateJson (ChannelsTable.mk db1) self.rules
      match res.assign "channels" channels with
      | none => (none, tbl.db)
      | some res => (some res, tbl.db)

/-- Modelled from the spec: the function `xaya::AllChannelsGameStateJson`, which
is not among the sources.  By the specification (4.4, 6) it builds the list of
per-channel records, one for every persisted channel (what the record of one
channel holds is the parameter `channelJson`), as a pure read that issues
read-only queries and does not mutate the underlying records. -/
def AllChannelsGameStateJson_spec {Chan : Type} (channelJson : Chan → BoardRules → Json.Value)
    (tbl : ChannelsTable Chan) (rules : BoardRules) : Json.Value × ChannelsTable Chan :=
  (.array (tbl.db.channels.map (fun ch => channelJson ch rules)), tbl)

end ships

/-! ## Outcomes of `ApplyMove` -/

namespace xaya

/-- Modelled from the spec: the three outcomes the specification distinguishes
for an `ApplyMove` call (a new board state, an invalid move, a retryable oracle
failure). -/
inductive MoveOutcome where
  | newState (s : BoardState)
  | invalidMove
  | oracleFailure
  deriving DecidableEq

/-- The outcome a call of `ApplyMove` stands for.  By the documentation of the
method a returned `true` comes with the new board state in `newState` and a
returned `false` means that the move is invalid; a call left by the exception
of a failed RPC request is an oracle failure. -/
def moveOutcome : Except OracleFailure (Bool × BoardState) → MoveOutcome
  | .ok (true, s) => .newState s
  | .ok (false, _) => .invalidMove
  | .error _ => .oracleFailure

/-- Chain data an RPC client serves: whatever block hash the client answers is
the hash the chain has at that height. -/
def XayaRpcClient.Serves (rpc : XayaRpcClient) (chain : Nat → String) : Prop :=
  ∀ (height : Nat) (hash : String), rpc.getblockhash height = .ok hash → hash = chain height

/-- The RPC client that answers every query with the chain data, that is the
oracle that never fails. -/
def XayaRpcClient.confirmed (chain : Nat → String) : XayaRpcClient where
  getblockhash height := .ok (chain height)

end xaya

/-! ## Game implementations and reconciliation, from the specification -/

namespace xaya

/-- Modelled from the spec: the move logic of a concrete game (4.2), none of
which is among the sources: a deterministic function of the state, the move and
the chain data it asks the oracle for.  It ends with the new encoded state or
with no state (the move is invalid), or asks for the block hash at a height and
goes on with the answer. -/
inductive MoveProg where
  | done (result : Option BoardState)
  | getblockhash (height : Nat) (next : String → MoveProg)

/-- Modelled from the spec: running the move logic against an RPC client; a
failed query propagates as the failure of the whole call (6, 7). -/
def MoveProg.run (rpc : XayaRpcClient) : MoveProg → Except OracleFailure (Option BoardState)
  | .done result => .ok result
  | .getblockhash height next =>
    match rpc.getblockhash height with
    | .error e => .error e
    | .ok hash => (next hash).run rpc

/-- Modelled from the spec: a concrete game, that is the subclasses of
`BoardRules` and `ParsedBoardState` of one game, none of which is among the
sources.  A game decodes an encoded state, under a channel id and metadata,
into a logical position or rejects it (4.1), and gives turn attribution, turn
count and move logic on positions (4.2). -/
structure GameImpl (Pos : Type) where
  decode : uint256 → ChannelMetadata → BoardState → Option Pos
  whoseTurn : Pos → Int
  turnCount : Pos → Nat
  applyMove : Pos → BoardMove → MoveProg

/-- Modelled from the spec: the `ParsedBoardState` of a game at a position.
`Equals` is true iff the other state, parsed under the same rules and metadata,
is the same logical position, and false if it fails to parse (4.2).
`ApplyMove` runs the move logic of the game against the RPC client. -/
def GameImpl.parsed {Pos : Type} [DecidableEq Pos] (G : GameImpl Pos)
    (cid : uint256) (md : ChannelMetadata) (pos : Pos) : ParsedBoardState where
  Equals other :=
    match G.decode cid md other with
    | some q => decide (q = pos)
    | none => false
  WhoseTurn := G.whoseTurn pos
  TurnCount := G.turnCount pos
  ApplyMove rpc mv :=
    match (G.applyMove pos mv).run rpc with
    | .error e => .error e
    | .ok (some s) => .ok (true, s)
    | .ok none => .ok (false, "")

/-- Modelled from the spec: the `BoardRules` of a game; `ParseState` is absent
exactly when the encoded state cannot be decoded (4.1). -/
def GameImpl.rules {Pos : Type} [DecidableEq Pos] (G : GameImpl Pos) : BoardRules where
  ParseState cid md s := (G.decode cid md s).map (G.parsed cid md)

/-- Modelled from the spec: replay of a chain of moves, each with the index of
the participant who made it (4.3, step 3): every move must come from the
participant whose turn it is, be accepted by `ApplyMove`, and yield a state that
`ParseState` accepts, which is the state the next move is applied to.  A move
whose application fails on the oracle does not establish anything (7). -/
def replay (rules : BoardRules) (cid : uint256) (md : ChannelMetadata) (rpc : XayaRpcClient) :
    ParsedBoardState → List (Int × BoardMove) → Option ParsedBoardState
  | p, [] => some p
  | p, (author, mv) :: rest =>
    if p.WhoseTurn = ParsedBoardState.NO_TURN ∨ p.WhoseTurn ≠ author then none
    else
      match p.ApplyMove rpc mv with
      | .error _ => none
      | .ok (false, _) => none
      | .ok (true, t) =>
        match rules.ParseState cid md t with
        | none => none
        | some q => replay rules cid md rpc q rest

/-- Modelled from the spec: the reachability check of 4.3, step 3: the chain
replays from the parsed lower state and ends in a state equal to the target. -/
def reaches (rules : BoardRules) (cid : uint256) (md : ChannelMetadata) (rpc : XayaRpcClient)
    (p : ParsedBoardState) (chain : List (Int × BoardMove)) (target : BoardState) : Bool :=
  match replay rules cid md rpc p chain with
  | some q => q.Equals target
  | none => false

/-- Modelled from the spec: the results of reconciliation (4.3): one claim is
authoritative, the two claims are the same logical state, neither parses, or
the turn counts tie on unequal states. -/
inductive Verdict where
  | authoritative (s : BoardState)
  | tie
  | unrecoverable
  | consistencyViolation
  deriving DecidableEq

/-- Modelled from the spec: the reconciliation algorithm of 4.3, which is not
among the sources.  The two claims come with the move chain offered as evidence
that the higher-count state is reachable from the lower-count one.
Step 1: parse both, a claim that alone parses wins, none parsing is
unrecoverable.  Step 2: equal states are a tie.  Step 3: the higher turn count
wins only if the chain establishes reachability from the lower-count state,
otherwise the lower-count state wins.  Step 4: equal turn counts of unequal
states are a consistency violation. -/
def reconcile (rules : BoardRules) (cid : uint256) (md : ChannelMetadata) (rpc : XayaRpcClient)
    (a b : BoardState) (evidence : List (Int × BoardMove)) : Verdict :=
  match rules.ParseState cid md a, rules.ParseState cid md b with
  | none, none => .unrecoverable
  | some _, none => .authoritative a
  | none, some _ => .authoritative b
  | some pa, some pb =>
    if pa.Equals b then .tie
    else if pa.TurnCount < pb.TurnCount then
      if reaches rules cid md rpc pa evidence b then .authoritative b else .authoritative a
    else if pb.TurnCount < pa.TurnCount then
      if reaches rules cid md rpc pb evidence a then .authoritative a else .authoritative b
    else .consistencyViolation

end xaya

/-! ## Concrete inputs -/

namespace xaya

/-- A game of two moves between two participants.  A state is encoded as one
`x` per move made; participant 0 moves first, participant 1 second, then the
game is over.  States with more than two moves decode but no move leads to
them.  The moves do not need the oracle. -/
def countGame : GameImpl Nat where
  decode _ _ s := if s.data.all (fun c => c == 'x') then some s.data.length else none
  whoseTurn n := if n < 2 then (n : Int) else ParsedBoardState.NO_TURN
  turnCount n := n
  applyMove n mv :=
    .done (if n < 2 ∧ mv = "m" then some (String.mk (List.replicate (n + 1) 'x')) else none)

/-- A game whose only move, `roll`, asks the oracle for the block hash at
height 5; the new state has one `x` per character of the hash. -/
def diceGame : GameImpl Nat where
  decode := countGame.decode
  whoseTurn _ := 0
  turnCount n := n
  applyMove _ mv :=
    if mv = "roll" then
      .getblockhash 5 (fun hash => .done (some (String.mk (List.replicate hash.data.length 'x'))))
    else .done none

/-- A channel id for the concrete inputs. -/
def sampleId : uint256 := ⟨7⟩

/-- Metadata with two participants. -/
def sampleMeta : ChannelMetadata := ⟨["alice", "bob"]⟩

/-- Chain data in which every block hash is `abc`. -/
def sampleChain : Nat → String := fun _ => "abc"

/-- An RPC client that is unreachable. -/
def sampleRpc : XayaRpcClient := ⟨fun _ => .error .unreachable⟩

/-- An RPC client that has recovered as far as height 5 and does not know
later blocks yet. -/
def recoveredRpc : XayaRpcClient :=
  ⟨fun height => if height ≤ 5 then .ok (sampleChain height) else .error .notConfirmed⟩

/-- A database with two rows of statistics, the counters of one at the ends of
the signed 64-bit range, and two channel records. -/
def sampleDb : SQLiteDatabase Nat where
  game_stats := [⟨"bob", 3, 1⟩, ⟨"alice", 9223372036854775807, -9223372036854775808⟩]
  channels := [10, 20]

/-- A stand-in for `AllChannelsGameStateJson` that lists the channel numbers and
leaves the table as it is. -/
def sampleAllChannels (tbl : ChannelsTable Nat) (_ : BoardRules) :
    Json.Value × ChannelsTable Nat :=
  (.array (tbl.db.channels.map (fun ch => Json.Value.int ch)), tbl)

end xaya

/-! ## Facts about the member map -/

namespace Json

theorem findMember_insertMember_same (key : String) (v : Value)
    (members : List (String × Value)) :
    findMember key (insertMember key v members) = some v := by
  induction members with
  | nil => simp [insertMember, findMember]
  | cons head rest ih =>
    obtain ⟨k, w⟩ := head
    by_cases h1 : key = k
    · simp [insertMember, findMember, h1]
    · by_cases h2 : keyLt key k = true
      · simp [insertMember, findMember, h1, h2]
      · simp [insertMember, findMember, h1, h2, ih]

theorem findMember_insertMember_other (key other : String) (v : Value)
    (members : List (String × Value)) (hne : other ≠ key) :
    findMember other (insertMember key v members) = findMember other members := by
  induction members with
  | nil => simp [insertMember, findMember, hne]
  | cons head rest ih =>
    obtain ⟨k, w⟩ := head
    by_cases h1 : key = k
    · subst h1
      simp [insertMember, findMember, hne]
    · by_cases h2 : keyLt key k = true
      · simp [insertMember, findMember, h1, h2, hne]
      · simp [insertMember, findMember, h1, h2, ih]

theorem keys_insertMember_fresh (key : String) (v : Value)
    (members : List (String × Value)) (hfresh : key ∉ members.map Prod.fst) :
    ((insertMember key v members).map Prod.fst).Perm (key :: members.map Prod.fst) := by
  induction members with
  | nil => simp [insertMember]
  | cons head rest ih =>
    obtain ⟨k, w⟩ := head
    simp only [List.map_cons, List.mem_cons, not_or] at hfresh
    obtain ⟨h1, hrest⟩ := hfresh
    by_cases h2 : keyLt key k = true
    · simp [insertMember, h1, h2]
    · simp only [insertMember, h1, h2, if_false, List.map_cons]
      exact ((ih hrest).cons k).trans (List.Perm.swap key k _)

theorem mem_insertMember (key : String) (v : Value) (members : List (String × Value))
    (entry : String × Value) (hmem : entry ∈ insertMember key v members) :
    entry = (key, v) ∨ entry ∈ members := by
  induction members with
  | nil =>
    simp [insertMember] at hmem
    exact Or.inl hmem
  | cons head rest ih =>
    obtain ⟨k, w⟩ := head
    by_cases h1 : key = k
    · rw [insertMember, if_pos h1] at hmem
      rcases List.mem_cons.mp hmem with h | h
      · exact Or.inl h
      · exact Or.inr (List.mem_cons_of_mem _ h)
    · by_cases h2 : keyLt key k = true
      · rw [insertMember, if_neg h1, if_pos h2] at hmem
        rcases List.mem_cons.mp hmem with h | h
        · exact Or.inl h
        · exact Or.inr h
      · rw [insertMember, if_neg h1, if_neg h2] at hmem
        rcases List.mem_cons.mp hmem with h | h
        · exact Or.inr (h ▸ List.mem_cons_self _ _)
        · rcases ih h with h3 | h3
          · exact Or.inl h3
          · exact Or.inr (List.mem_cons_of_mem _ h3)

theorem toInt64_of_isInt64 (x : Int) (hx : isInt64 x) : toInt64 x = x := by
  unfold isInt64 at hx
  unfold toInt64
  have h : (x + 2 ^ 63) % 2 ^ 64 = x + 2 ^ 63 :=
    Int.emod_eq_of_lt (by omega) (by omega)
  omega

theorem isInt64_toInt64 (x : Int) : isInt64 (toInt64 x) := by
  unfold isInt64 toInt64
  have h1 : 0 ≤ (x + 2 ^ 63) % 2 ^ 64 := Int.emod_nonneg _ (by norm_num)
  have h2 : (x + 2 ^ 63) % 2 ^ 64 < 2 ^ 64 := Int.emod_lt_of_pos _ (by norm_num)
  constructor <;> omega

end Json

/-! ## The projection `GetFullJson` -/

namespace ships

open xaya Json

theorem statsLoop_object (rows : List StatsRow) (members : List (String × Value)) :
    statsLoop rows (.object members) = some (.object (statsMembers rows members)) := by
  induction rows generalizing members with
  | nil => simp [statsLoop, statsMembers]
  | cons row rest ih =>
    have hstep : statsLoop (row :: rest) (.object members)
        = statsLoop rest (.object (insertMember row.name (rowObject row) members)) := rfl
    rw [hstep, ih]
    rfl

theorem statsMembers_values (rows : List StatsRow) (members : List (String × Value))
    (entry : String × Value) (hmem : entry ∈ statsMembers rows members) :
    entry ∈ members ∨ ∃ row ∈ rows, entry = (row.name, rowObject row) := by
  induction rows generalizing members with
  | nil => exact Or.inl (by simpa [statsMembers] using hmem)
  | cons row rest ih =>
    have h : entry ∈ statsMembers rest (insertMember row.name (rowObject row) members) := by
      simpa [statsMembers] using hmem
    rcases ih _ h with h1 | ⟨r, hr, he⟩
    · rcases mem_insertMember _ _ _ _ h1 with h2 | h2
      · exact Or.inr ⟨row, List.mem_cons_self _ _, h2⟩
      · exact Or.inl h2
    · exact Or.inr ⟨r, List.mem_cons_of_mem _ hr, he⟩

theorem statsMembers_keys (rows : List StatsRow) (members : List (String × Value))
    (hnodup : (rows.map StatsRow.name).Nodup)
    (hdisj : ∀ row ∈ rows, row.name ∉ members.map Prod.fst) :
    ((statsMembers rows members).map Prod.fst).Perm
      (members.map Prod.fst ++ rows.map StatsRow.name) := by
  induction rows generalizing members with
  | nil => simp [statsMembers]
  | cons row rest ih =>
    have hn := List.nodup_cons.mp
      (show (row.name :: rest.map StatsRow.name).Nodup from hnodup)
    have hfresh : row.name ∉ members.map Prod.fst := hdisj row (List.mem_cons_self _ _)
    have hkeys := keys_insertMember_fresh row.name (rowObject row) members hfresh
    have hdisj2 : ∀ r ∈ rest, r.name ∉
        (insertMember row.name (rowObject row) members).map Prod.fst := by
      intro r hr hmem
      rcases List.mem_cons.mp (hkeys.subset hmem) with h | h
      · exact hn.1 (h ▸ List.mem_map_of_mem _ hr)
      · exact hdisj r (List.mem_cons_of_mem _ hr) h
    have hrec := ih (insertMember row.name (rowObject row) members) hn.2 hdisj2
    have hstep : statsMembers (row :: rest) members
        = statsMembers rest (insertMember row.name (rowObject row) members) := by
      simp [statsMembers]
    rw [hstep]
    refine hrec.trans ?_
    refine (List.Perm.append_right _ hkeys).trans ?_
    simp only [List.map_cons, List.cons_append]
    exact (List.perm_middle).symm

theorem statsMembers_find (rows : List StatsRow) (members : List (String × Value))
    (hnodup : (rows.map StatsRow.name).Nodup) (row : StatsRow) (hrow : row ∈ rows) :
    findMember row.name (statsMembers rows members) = some (rowObject row) := by
  induction rows generalizing members with
  | nil => cases hrow
  | cons first rest ih =>
    have hn := List.nodup_cons.mp
      (show (first.name :: rest.map StatsRow.name).Nodup from hnodup)
    have hstep : statsMembers (first :: rest) members
        = statsMembers rest (insertMember first.name (rowObject first) members) := by
      simp [statsMembers]
    rw [hstep]
    rcases List.mem_cons.mp hrow with h | h
    · subst h
      clear ih hstep hrow
      have hkeep : ∀ (rs : List StatsRow) (ms : List (String × Value)),
          row.name ∉ rs.map StatsRow.name →
          findMember row.name (statsMembers rs ms) = findMember row.name ms := by
        intro rs
        induction rs with
        | nil => intro ms _; simp [statsMembers]
        | cons r rs ih2 =>
          intro ms hnot
          simp only [List.map_cons, List.mem_cons, not_or] at hnot
          have hs : statsMembers (r :: rs) ms
              = statsMembers rs (insertMember r.name (rowObject r) ms) := by
            simp [statsMembers]
          rw [hs, ih2 _ hnot.2, findMember_insertMember_other _ _ _ _ hnot.1]
      rw [hkeep rest _ hn.1, findMember_insertMember_same]
    · exact ih _ hn.2 h

theorem GetFullJson_eq {Chan : Type}
    (AllChannelsGameStateJson : ChannelsTable Chan → BoardRules → Value × ChannelsTable Chan)
    (self : GameStateJson Chan) :
    self.GetFullJson AllChannelsGameStateJson =
      (some (.object
          [("channels", (AllChannelsGameStateJson (ChannelsTable.mk self.db) self.rules).1),
           ("gamestats", .object (statsMembers self.db.game_stats []))]),
       (AllChannelsGameStateJson (ChannelsTable.mk self.db) self.rules).2.db) := by
  have h1 : ("channels" : String) ≠ "gamestats" := by decide
  have h2 : keyLt "channels" "gamestats" = true := by decide
  simp [GameStateJson.GetFullJson, SQLiteDatabase.PrepareRo, statsLoop_object, Value.assign,
    insertMember, h1, h2]

/-- C1: for every database content (and whatever `AllChannelsGameStateJson`
computes), `GetFullJson` returns a JSON object whose member names are exactly
`channels` and `gamestats`; the value under `channels` is what
`AllChannelsGameStateJson` returned for the channels table and the rules, the
value under `gamestats` is the `stats` object the loop built, and every member
of that object is an object with exactly the counters `lost` and `won`, both
signed 64-bit integers. -/
theorem GetFullJson_two_fields {Chan : Type}
    (AllChannelsGameStateJson : ChannelsTable Chan → BoardRules → Value × ChannelsTable Chan)
    (self : GameStateJson Chan) :
    ∃ res stats,
      (self.GetFullJson AllChannelsGameStateJson).1 = some res ∧
      res.isObject = true ∧
      res.getMemberNames = ["channels", "gamestats"] ∧
      res.find "channels" = some (AllChannelsGameStateJson (ChannelsTable.mk self.db) self.rules).1 ∧
      res.find "gamestats" = some (.object stats) ∧
      statsLoop self.db.game_stats (.object []) = some (.object stats) ∧
      ∀ entry ∈ stats, ∃ won lost : Int,
        entry.2 = .object [("lost", .int lost), ("won", .int won)] ∧
        isInt64 won ∧ isInt64 lost := by
  refine ⟨.object [("channels", (AllChannelsGameStateJson (ChannelsTable.mk self.db) self.rules).1),
      ("gamestats", .object (statsMembers self.db.game_stats []))],
    statsMembers self.db.game_stats [], by rw [GetFullJson_eq], rfl, rfl, ?_, ?_,
    statsLoop_object _ _, ?_⟩
  · simp [Value.find, findMember]
  · have h1 : ("gamestats" : String) ≠ "channels" := by decide
    simp [Value.find, findMember, h1]
  · intro entry hmem
    rcases statsMembers_values _ _ _ hmem with h | ⟨row, _, he⟩
    · cases h
    · exact ⟨toInt64 (GetInt64 row.won), toInt64 (GetInt64 row.lost), by rw [he]; rfl,
        isInt64_toInt64 _, isInt64_toInt64 _⟩

/-- C2: when the names in `game_stats` are pairwise distinct (and the counters
are signed 64-bit values, as SQLite stores them), the `gamestats` member of the
document `GetFullJson` returns has one key per row and no other key, and under
the name of each row it holds an object with exactly the members `lost` and
`won`, equal to the counters of that row. -/
theorem GetFullJson_gamestats {Chan : Type}
    (AllChannelsGameStateJson : ChannelsTable Chan → BoardRules → Value × ChannelsTable Chan)
    (self : GameStateJson Chan)
    (hnames : (self.db.game_stats.map StatsRow.name).Nodup)
    (hrange : ∀ row ∈ self.db.game_stats, isInt64 row.won ∧ isInt64 row.lost) :
    ∃ res stats,
      (self.GetFullJson AllChannelsGameStateJson).1 = some res ∧
      res.find "gamestats" = some stats ∧
      stats.isObject = true ∧
      stats.getMemberNames.Perm (self.db.game_stats.map StatsRow.name) ∧
      stats.getMemberNames.Nodup ∧
      ∀ row ∈ self.db.game_stats,
        stats.find row.name = some (.object [("lost", .int row.lost), ("won", .int row.won)]) := by
  have hkeys := statsMembers_keys self.db.game_stats [] hnames (by intro _ _ h; cases h)
  simp only [List.map_nil, List.nil_append] at hkeys
  refine ⟨.object [("channels", (AllChannelsGameStateJson (ChannelsTable.mk self.db) self.rules).1),
      ("gamestats", .object (statsMembers self.db.game_stats []))],
    .object (statsMembers self.db.game_stats []), by rw [GetFullJson_eq], ?_, rfl,
    hkeys, hkeys.nodup_iff.mpr hnames, ?_⟩
  · have h1 : ("gamestats" : String) ≠ "channels" := by decide
    simp [Value.find, findMember, h1]
  · intro row hrow
    have hfind := statsMembers_find self.db.game_stats [] hnames row hrow
    obtain ⟨hw, hl⟩ := hrange row hrow
    simp only [Value.find, hfind, rowObject, GetInt64, toInt64_of_isInt64 _ hw,
      toInt64_of_isInt64 _ hl]

/-- C3: with no row in `game_stats` and no channel, `GetFullJson` does not fail
and returns the object with both members, `gamestats` being the empty object
and `channels` what `AllChannelsGameStateJson` returns for the empty table. -/
theorem GetFullJson_empty {Chan : Type}
    (AllChannelsGameStateJson : ChannelsTable Chan → BoardRules → Value × ChannelsTable Chan)
    (rules : BoardRules) :
    ((GameStateJson.mk (SQLiteDatabase.mk [] []) rules).GetFullJson
        AllChannelsGameStateJson).1 =
      some (.object [("channels",
                      (AllChannelsGameStateJson
                        (ChannelsTable.mk (SQLiteDatabase.mk [] [])) rules).1),
                     ("gamestats", .object [])]) ∧
    Value.isNull (.object []) = false := by
  rw [GetFullJson_eq]
  exact ⟨rfl, rfl⟩

/-- C4: `GetFullJson` is a pure read.  Whatever `AllChannelsGameStateJson` does,
the database after the call is the database that function leaves: the code of
`GetFullJson` itself only steps through its read-only `SELECT`.  With
`AllChannelsGameStateJson` as the specification describes it, for every
database state the rows of `game_stats` and the channel records after the call
are those before it, and a second call, made on the database the first one
left, returns the same document. -/
theorem GetFullJson_pure_read {Chan : Type} (channelJson : Chan → BoardRules → Value)
    (self : GameStateJson Chan) :
    (∀ helper : ChannelsTable Chan → BoardRules → Value × ChannelsTable Chan,
      (self.GetFullJson helper).2 = (helper (ChannelsTable.mk self.db) self.rules).2.db) ∧
    (self.GetFullJson (AllChannelsGameStateJson_spec channelJson)).2.game_stats
      = self.db.game_stats ∧
    (self.GetFullJson (AllChannelsGameStateJson_spec channelJson)).2.channels
      = self.db.channels ∧
    (self.GetFullJson (AllChannelsGameStateJson_spec channelJson)).2 = self.db ∧
    ((GameStateJson.mk (self.GetFullJson (AllChannelsGameStateJson_spec channelJson)).2
        self.rules).GetFullJson (AllChannelsGameStateJson_spec channelJson)).1
      = (self.GetFullJson (AllChannelsGameStateJson_spec channelJson)).1 := by
  have hdb : (self.GetFullJson (AllChannelsGameStateJson_spec channelJson)).2 = self.db := by
    rw [GetFullJson_eq]
    rfl
  refine ⟨fun helper => by rw [GetFullJson_eq], by rw [hdb], by rw [hdb], hdb, ?_⟩
  rw [hdb]

end ships

/-! ## Board rules, `Equals`, `ApplyMove` and reconciliation -/

namespace xaya

theorem GameImpl.parseState_eq_some {Pos : Type} [DecidableEq Pos] (G : GameImpl Pos)
    (cid : uint256) (md : ChannelMetadata) (s : BoardState) (p : ParsedBoardState) :
    G.rules.ParseState cid md s = some p ↔
      ∃ pos, G.decode cid md s = some pos ∧ p = G.parsed cid md pos := by
  simp only [GameImpl.rules, Option.map_eq_some']
  constructor
  · rintro ⟨pos, h1, h2⟩
    exact ⟨pos, h1, h2.symm⟩
  · rintro ⟨pos, h1, h2⟩
    exact ⟨pos, h1, h2.symm⟩

theorem GameImpl.parseState_eq_none {Pos : Type} [DecidableEq Pos] (G : GameImpl Pos)
    (cid : uint256) (md : ChannelMetadata) (s : BoardState) :
    G.rules.ParseState cid md s = none ↔ G.decode cid md s = none := by
  simp [GameImpl.rules]

theorem GameImpl.parsed_Equals {Pos : Type} [DecidableEq Pos] (G : GameImpl Pos)
    (cid : uint256) (md : ChannelMetadata) (pos : Pos) (s : BoardState) :
    (G.parsed cid md pos).Equals s = true ↔ G.decode cid md s = some pos := by
  simp only [GameImpl.parsed]
  cases h : G.decode cid md s with
  | none => simp
  | some q => simp

theorem GameImpl.Equals_symm {Pos : Type} [DecidableEq Pos] (G : GameImpl Pos)
    (cid : uint256) (md : ChannelMetadata) (a b : BoardState) (posa posb : Pos)
    (ha : G.decode cid md a = some posa) (hb : G.decode cid md b = some posb) :
    (G.parsed cid md posb).Equals a = (G.parsed cid md posa).Equals b := by
  by_cases h : posa = posb
  · subst h
    rw [(G.parsed_Equals cid md posa a).mpr ha, (G.parsed_Equals cid md posa b).mpr hb]
  · have h1 : (G.parsed cid md posb).Equals a ≠ true := by
      intro h2
      have h3 := (G.parsed_Equals cid md posb a).mp h2
      rw [ha] at h3
      exact h (Option.some.inj h3)
    have h2 : (G.parsed cid md posa).Equals b ≠ true := by
      intro h2
      have h3 := (G.parsed_Equals cid md posa b).mp h2
      rw [hb] at h3
      exact h (Option.some.inj h3).symm
    rw [Bool.eq_false_iff.mpr h1, Bool.eq_false_iff.mpr h2]

/-- C5: for a game whose `Equals` is the comparison of logical positions, a
state `S` that `ParseState` accepts and a byte string `M` that `ParseState`
rejects under the same channel id and metadata: `Equals` of the parsed `S` on
`M` is false (a value, not an error), and on the encoding `S` itself it is
true. -/
theorem Equals_of_parsed {Pos : Type} [DecidableEq Pos] (G : GameImpl Pos)
    (cid : uint256) (md : ChannelMetadata) (S M : BoardState) (p : ParsedBoardState)
    (hS : G.rules.ParseState cid md S = some p)
    (hM : G.rules.ParseState cid md M = none) :
    p.Equals M = false ∧ p.Equals S = true := by
  obtain ⟨pos, hdec, hp⟩ := (G.parseState_eq_some cid md S p).mp hS
  subst hp
  refine ⟨?_, (G.parsed_Equals cid md pos S).mpr hdec⟩
  have hnone := (G.parseState_eq_none cid md M).mp hM
  rw [← Bool.not_eq_true]
  intro h
  rw [(G.parsed_Equals cid md pos M).mp h] at hnone
  cases hnone

/-- C5 at a concrete input: the state `x` of the two-move game and the
malformed bytes `?`. -/
theorem Equals_of_parsed_witness :
    (countGame.parsed sampleId sampleMeta 1).Equals "?" = false ∧
    (countGame.parsed sampleId sampleMeta 1).Equals "x" = true :=
  Equals_of_parsed countGame sampleId sampleMeta "x" "?" _ rfl rfl

theorem MoveProg.run_serves (prog : MoveProg) (rpc : XayaRpcClient) (chain : Nat → String)
    (hserves : rpc.Serves chain) :
    (∃ e, prog.run rpc = .error e) ∨ prog.run rpc = prog.run (XayaRpcClient.confirmed chain) := by
  induction prog with
  | done result => exact Or.inr rfl
  | getblockhash height next ih =>
    cases hq : rpc.getblockhash height with
    | error e =>
      refine Or.inl ⟨e, ?_⟩
      simp only [MoveProg.run, hq]
    | ok hash =>
      have hhash : hash = chain height := hserves height hash hq
      have hl : (MoveProg.getblockhash height next).run rpc = (next hash).run rpc := by
        simp only [MoveProg.run, hq]
      have hr : (MoveProg.getblockhash height next).run (XayaRpcClient.confirmed chain)
          = (next (chain height)).run (XayaRpcClient.confirmed chain) := by
        simp only [MoveProg.run, XayaRpcClient.confirmed]
      rw [hl, hr, hhash]
      exact ih (chain height)

theorem GameImpl.ApplyMove_serves {Pos : Type} [DecidableEq Pos] (G : GameImpl Pos)
    (cid : uint256) (md : ChannelMetadata) (pos : Pos) (mv : BoardMove)
    (rpc : XayaRpcClient) (chain : Nat → String) (hserves : rpc.Serves chain) :
    (∃ e, (G.parsed cid md pos).ApplyMove rpc mv = .error e) ∨
    (G.parsed cid md pos).ApplyMove rpc mv
      = (G.parsed cid md pos).ApplyMove (XayaRpcClient.confirmed chain) mv := by
  rcases (G.applyMove pos mv).run_serves rpc chain hserves with ⟨e, he⟩ | heq
  · refine Or.inl ⟨e, ?_⟩
    simp only [GameImpl.parsed, he]
  · refine Or.inr ?_
    simp only [GameImpl.parsed, heq]

/-- C7: an `ApplyMove` call has one of three outcomes that exclude each other: a
new board state, an invalid move, or an oracle failure.  For a game whose move
logic is a function of the state, the move and the chain data, and RPC clients
that serve the chain data: a call on which the oracle fails is reported as
an oracle failure and not as an invalid move; a call that returns, returns what
the call returns when the oracle never fails, so a failing oracle never turns
into "move invalid"; and the retry with the same state and move, once the
oracle has recovered, gives the result as if the failure had not happened. -/
theorem ApplyMove_oracle_failure_retry {Pos : Type} [DecidableEq Pos] (G : GameImpl Pos)
    (cid : uint256) (md : ChannelMetadata) (pos : Pos) (mv : BoardMove)
    (chain : Nat → String) (failing recovered : XayaRpcClient)
    (e : OracleFailure) (r : Bool × BoardState)
    (hrecovered : recovered.Serves chain)
    (hfail : (G.parsed cid md pos).ApplyMove failing mv = .error e)
    (hretry : (G.parsed cid md pos).ApplyMove recovered mv = .ok r) :
    moveOutcome ((G.parsed cid md pos).ApplyMove failing mv) = .oracleFailure ∧
    moveOutcome ((G.parsed cid md pos).ApplyMove failing mv) ≠ .invalidMove ∧
    (∀ s, moveOutcome ((G.parsed cid md pos).ApplyMove failing mv) ≠ .newState s) ∧
    (moveOutcome ((G.parsed cid md pos).ApplyMove recovered mv) = .invalidMove ∨
      ∃ s, moveOutcome ((G.parsed cid md pos).ApplyMove recovered mv) = .newState s) ∧
    (G.parsed cid md pos).ApplyMove recovered mv
      = (G.parsed cid md pos).ApplyMove (XayaRpcClient.confirmed chain) mv ∧
    (∀ (rpc : XayaRpcClient), rpc.Serves chain →
      moveOutcome ((G.parsed cid md pos).ApplyMove rpc mv) = .oracleFailure ∨
      (G.parsed cid md pos).ApplyMove rpc mv = (G.parsed cid md pos).ApplyMove recovered mv) := by
  have hrec : (G.parsed cid md pos).ApplyMove recovered mv
      = (G.parsed cid md pos).ApplyMove (XayaRpcClient.confirmed chain) mv := by
    rcases G.ApplyMove_serves cid md pos mv recovered chain hrecovered with ⟨e2, he2⟩ | heq
    · rw [hretry] at he2
      cases he2
    · exact heq
  refine ⟨by rw [hfail]; rfl, by rw [hfail]; simp [moveOutcome],
    fun s => by rw [hfail]; simp [moveOutcome], ?_, hrec, ?_⟩
  · rw [hretry]
    obtain ⟨ok, t⟩ := r
    cases ok with
    | false => exact Or.inl rfl
    | true => exact Or.inr ⟨t, rfl⟩
  · intro rpc hserves
    rcases G.ApplyMove_serves cid md pos mv rpc chain hserves with ⟨e2, he2⟩ | heq
    · exact Or.inl (by rw [he2]; rfl)
    · exact Or.inr (by rw [heq, hrec])

theorem recoveredRpc_serves : recoveredRpc.Serves sampleChain := by
  intro height hash h
  unfold recoveredRpc at h
  by_cases hh : height ≤ 5
  · simp only [hh, if_true] at h
    cases h
    rfl
  · simp only [hh, if_false] at h
    cases h

/-- C7 at a concrete input: the move `roll` of the dice game needs the block
hash at height 5.  On the unreachable client the call is an oracle failure, on
the recovered client the retry returns the new state `xxx`, which is what the
never-failing oracle gives; the move `pass` is invalid on either client. -/
theorem ApplyMove_oracle_failure_retry_witness :
    recoveredRpc.Serves sampleChain ∧
    (diceGame.parsed sampleId sampleMeta 0).ApplyMove sampleRpc "roll" = .error .unreachable ∧
    (diceGame.parsed sampleId sampleMeta 0).ApplyMove recoveredRpc "roll" = .ok (true, "xxx") ∧
    (diceGame.parsed sampleId sampleMeta 0).ApplyMove sampleRpc "pass" = .ok (false, "") ∧
    (diceGame.parsed sampleId sampleMeta 0).ApplyMove recoveredRpc "roll"
      = (diceGame.parsed sampleId sampleMeta 0).ApplyMove
          (XayaRpcClient.confirmed sampleChain) "roll" :=
  ⟨recoveredRpc_serves, rfl, rfl, rfl,
   (ApplyMove_oracle_failure_retry diceGame sampleId sampleMeta 0 "roll" sampleChain
      sampleRpc recoveredRpc .unreachable (true, "xxx")
      recoveredRpc_serves rfl rfl).2.2.2.2.1⟩

/-- C10: `NO_TURN` is `-1`; an index `t` into a participants array of any
length `n` differs from `NO_TURN`, and `NO_TURN` is not such an index. -/
theorem NO_TURN_not_index (n : Nat) (t : Int) (hindex : isParticipantIndex n t) :
    ParsedBoardState.NO_TURN = -1 ∧ t ≠ ParsedBoardState.NO_TURN ∧
    ¬ isParticipantIndex n ParsedBoardState.NO_TURN := by
  unfold isParticipantIndex at *
  unfold ParsedBoardState.NO_TURN
  omega

/-- C10 at a concrete input: index 1 of two participants. -/
theorem NO_TURN_not_index_witness :
    isParticipantIndex 2 1 ∧
    (ParsedBoardState.NO_TURN = -1 ∧ (1 : Int) ≠ ParsedBoardState.NO_TURN ∧
      ¬ isParticipantIndex 2 ParsedBoardState.NO_TURN) :=
  ⟨by unfold isParticipantIndex; decide,
   NO_TURN_not_index 2 1 (by unfold isParticipantIndex; decide)⟩

theorem reconcile_parsed (rules : BoardRules) (cid : uint256) (md : ChannelMetadata)
    (rpc : XayaRpcClient) (a b : BoardState) (pa pb : ParsedBoardState)
    (evidence : List (Int × BoardMove))
    (ha : rules.ParseState cid md a = some pa) (hb : rules.ParseState cid md b = some pb) :
    reconcile rules cid md rpc a b evidence =
      if pa.Equals b then .tie
      else if pa.TurnCount < pb.TurnCount then
        if reaches rules cid md rpc pa evidence b then .authoritative b else .authoritative a
      else if pb.TurnCount < pa.TurnCount then
        if reaches rules cid md rpc pb evidence a then .authoritative a else .authoritative b
      else .consistencyViolation := by
  simp only [reconcile, ha, hb]

/-- C9: for states `a` and `b` of one channel, `b` with the higher turn count,
such that no legal chain of moves leads from `a` to `b`: whatever chain is
offered as evidence and in whichever order the claims are passed,
reconciliation selects `a` and not `b`. -/
theorem reconcile_rejects_unreachable {Pos : Type} [DecidableEq Pos] (G : GameImpl Pos)
    (cid : uint256) (md : ChannelMetadata) (rpc : XayaRpcClient)
    (a b : BoardState) (pa pb : ParsedBoardState) (evidence : List (Int × BoardMove))
    (ha : G.rules.ParseState cid md a = some pa)
    (hb : G.rules.ParseState cid md b = some pb)
    (hcount : pa.TurnCount < pb.TurnCount)
    (hno : ∀ chain, reaches G.rules cid md rpc pa chain b = false) :
    reconcile G.rules cid md rpc a b evidence = .authoritative a ∧
    reconcile G.rules cid md rpc b a evidence = .authoritative a ∧
    reconcile G.rules cid md rpc a b evidence ≠ .authoritative b ∧
    reconcile G.rules cid md rpc b a evidence ≠ .authoritative b := by
  obtain ⟨posa, hda, hpa⟩ := (G.parseState_eq_some cid md a pa).mp ha
  obtain ⟨posb, hdb, hpb⟩ := (G.parseState_eq_some cid md b pb).mp hb
  have hab := reconcile_parsed G.rules cid md rpc a b pa pb evidence ha hb
  have hba := reconcile_parsed G.rules cid md rpc b a pb pa evidence hb ha
  subst hpa hpb
  have hEq : (G.parsed cid md posa).Equals b = false := by
    have h := hno []
    simpa [reaches, replay] using h
  have hEq2 : (G.parsed cid md posb).Equals a = false := by
    rw [G.Equals_symm cid md a b posa posb hda hdb]; exact hEq
  have hnlt : ¬ (G.parsed cid md posb).TurnCount < (G.parsed cid md posa).TurnCount :=
    not_lt.mpr (le_of_lt hcount)
  rw [hEq] at hab
  rw [hEq2] at hba
  simp only [hcount, hnlt, hno evidence, if_true, if_false, Bool.false_eq_true] at hab hba
  have hab_ne : a ≠ b := by
    intro h
    rw [h, hdb] at hda
    rw [Option.some.inj hda] at hcount
    exact lt_irrefl _ hcount
  rw [hab, hba]
  refine ⟨rfl, rfl, ?_, ?_⟩ <;>
  · intro h
    exact hab_ne (Verdict.authoritative.inj h)

theorem countGame_decode_replicate (cid : uint256) (md : ChannelMetadata) (n : Nat) :
    countGame.decode cid md (String.mk (List.replicate n 'x')) = some n := by
  simp [countGame]

theorem countGame_accept (cid : uint256) (md : ChannelMetadata) (rpc : XayaRpcClient)
    (n : Nat) (mv : BoardMove) (t : BoardState)
    (happ : (countGame.parsed cid md n).ApplyMove rpc mv = .ok (true, t)) :
    n < 2 ∧ countGame.decode cid md t = some (n + 1) := by
  by_cases hc : n < 2 ∧ mv = "m"
  · have ht : t = String.mk (List.replicate (n + 1) 'x') := by
      simp only [GameImpl.parsed, countGame, MoveProg.run, hc, and_self, if_true,
        Except.ok.injEq, Prod.mk.injEq, true_and] at happ
      exact happ.symm
    rw [ht]
    exact ⟨hc.1, countGame_decode_replicate cid md (n + 1)⟩
  · simp [GameImpl.parsed, countGame, MoveProg.run, hc] at happ

theorem countGame_replay_bound (cid : uint256) (md : ChannelMetadata) (rpc : XayaRpcClient)
    (chain : List (Int × BoardMove)) :
    ∀ (n : Nat) (q : ParsedBoardState),
      replay countGame.rules cid md rpc (countGame.parsed cid md n) chain = some q →
      ∃ k, q = countGame.parsed cid md k ∧ k ≤ max n 2 := by
  induction chain with
  | nil =>
    intro n q h
    simp only [replay, Option.some.injEq] at h
    exact ⟨n, h.symm, le_max_left _ _⟩
  | cons step rest ih =>
    intro n q h
    obtain ⟨author, mv⟩ := step
    rw [replay] at h
    split at h
    · cases h
    · rcases happ : (countGame.parsed cid md n).ApplyMove rpc mv with e | ⟨ok, t⟩
      · rw [happ] at h
        cases h
      rw [happ] at h
      cases ok with
      | false => cases h
      | true =>
        simp only at h
        obtain ⟨hn, hdec⟩ := countGame_accept cid md rpc n mv t happ
        have hparse : countGame.rules.ParseState cid md t
            = some (countGame.parsed cid md (n + 1)) :=
          (countGame.parseState_eq_some cid md t _).mpr ⟨n + 1, hdec, rfl⟩
        rw [hparse] at h
        simp only at h
        obtain ⟨k, hq, hk⟩ := ih (n + 1) q h
        exact ⟨k, hq, by omega⟩

theorem countGame_unreachable (chain : List (Int × BoardMove)) :
    reaches countGame.rules sampleId sampleMeta sampleRpc
      (countGame.parsed sampleId sampleMeta 0) chain "xxx" = false := by
  unfold reaches
  cases hrep : replay countGame.rules sampleId sampleMeta sampleRpc
      (countGame.parsed sampleId sampleMeta 0) chain with
  | none => rfl
  | some q =>
    obtain ⟨k, hq, hk⟩ := countGame_replay_bound sampleId sampleMeta sampleRpc chain 0 q hrep
    subst hq
    simp only
    rw [Bool.eq_false_iff]
    intro h
    have h2 := (countGame.parsed_Equals sampleId sampleMeta k "xxx").mp h
    have h3 : countGame.decode sampleId sampleMeta "xxx" = some 3 := by decide
    rw [h3] at h2
    have h4 : 3 = k := Option.some.inj h2
    omega

/-- C9 at a concrete input: the initial state of the two-move game against a
claimed state with three moves, which no chain reaches. -/
theorem reconcile_rejects_unreachable_witness :
    (countGame.parsed sampleId sampleMeta 0).TurnCount
      < (countGame.parsed sampleId sampleMeta 3).TurnCount ∧
    reconcile countGame.rules sampleId sampleMeta sampleRpc "" "xxx"
      [(0, "m"), (1, "m"), (0, "m")] = .authoritative "" ∧
    reconcile countGame.rules sampleId sampleMeta sampleRpc "xxx" ""
      [(0, "m"), (1, "m"), (0, "m")] = .authoritative "" :=
  have h := reconcile_rejects_unreachable countGame sampleId sampleMeta sampleRpc "" "xxx"
    (countGame.parsed sampleId sampleMeta 0) (countGame.parsed sampleId sampleMeta 3)
    [(0, "m"), (1, "m"), (0, "m")] rfl rfl (by decide) countGame_unreachable
  ⟨by decide, h.1, h.2.1⟩

end xaya

namespace ships
open xaya Json

/-- C2 at a concrete input: two rows, the counters of one at the ends of the
signed 64-bit range. -/
theorem GetFullJson_gamestats_witness :
    ∃ res stats,
      ((GameStateJson.mk sampleDb countGame.rules).GetFullJson sampleAllChannels).1
        = some res ∧
      res.find "gamestats" = some stats ∧
      stats.isObject = true ∧
      stats.getMemberNames.Perm ["bob", "alice"] ∧
      stats.getMemberNames.Nodup ∧
      ∀ row ∈ sampleDb.game_stats,
        stats.find row.name = some (.object [("lost", .int row.lost), ("won", .int row.won)]) :=
  GetFullJson_gamestats sampleAllChannels (GameStateJson.mk sampleDb countGame.rules)
    (by decide) (by unfold isInt64; decide)

end ships
